import Mathlib

/-!
# dada2 `Rmain.cpp`: the calibration sampler, the round loop and the entry point

A shallow embedding of the three functions of `src/Rmain.cpp`:

* `calibrate_kmers` (the strided pair sampler),
* `run_dada` (the round loop of the clustering engine),
* `dada_uniques` (the argument checks in front of the engine).

The alignment, k-mer and clustering routines are declared in `dada.h`, which is
not part of the translated file; they enter as parameters (`Engine`) or are kept
symbolic (a row of the calibration table is recorded as the index pair whose two
distances it stores).

Machine integers.  `int` is the 32-bit two's-complement type and `size_t` the
64-bit unsigned type of the platforms the package is built for; an `int`
result that does not fit wraps around, which is what those platforms compute
(C++ itself leaves signed overflow undefined).  The `int` computations of lines
215-223 (`nseqs = seqs.size()`, `nseqs - 1`, the product `nseqs * (nseqs-1)`,
the division by 2 and the conversion of the result to `size_t`) are embedded
with their wrap-around (`wrap32`, `to_size_t`, `pair_count_int`); the exact
count `n(n-1)/2` of the claims is `pair_count`.  Two things are embedded
exactly, and agree with the code in the stated ranges: `(int) foo` of line 220
is `Nat.sqrt (4 * max_aligns)` (the `double` computation gives the same value
for every cap below `2^50`), and the sums `i + stride`, `j + stride` of the
loop variables are exact (`i, j < nseqs` and `stride ≤ nseqs / 2`, so the sums
fit an `int` for every `nseqs < 1431655765`).
-/

namespace Dada

/-! ## `calibrate_kmers` -/

/-- State of the two nested sampling loops.  `rows` is the pair of vectors
`adist` / `kdist`, which are always written at the same index: `none` is a row
that still holds its zero initial value, `some (i, j)` a row holding the two
distances computed for `seqs[i]` and `seqs[j]`.  `log` is the list of the
writes performed so far, oldest first, as `(row index, i, j)`.  `oob` records
that a write fell outside the vectors. -/
structure CalState where
  npairs : Nat
  rows : List (Option (Nat × Nat))
  log : List (Nat × Nat × Nat)
  oob : Bool
  deriving DecidableEq, Repr

/-- Body of the inner loop, lines 240-250: `adist[npairs] = ...;
kdist[npairs] = ...; npairs++`. -/
def CalState.record (st : CalState) (i j : Nat) : CalState :=
  { npairs := st.npairs + 1
    rows := st.rows.set st.npairs (some (i, j))
    log := st.log ++ [(st.npairs, i, j)]
    oob := st.oob || decide (st.rows.length ≤ st.npairs) }

/-- Inner loop `for(j=i+1; j<nseqs; j=j+stride)` (lines 239-254), entered at
the value `j` of its loop variable.  The first argument is the fuel; `none` is "out of fuel". -/
def innerLoop (nseqs stride max_aligns i : Nat) : Nat → Nat → CalState → Option CalState
  | 0, _, _ => none
  | fuel + 1, j, st =>
    if j < nseqs then
      let st1 := st.record i j
      if st1.npairs ≥ max_aligns then some st1
      else innerLoop nseqs stride max_aligns i fuel (j + stride) st1
    else some st

/-- Outer loop `for(i=0; i<nseqs; i=i+stride)` (lines 235-258), entered at the
value `i` of its loop variable.  `ifuel` is the fuel handed to every run of the
inner loop. -/
def outerLoop (nseqs stride max_aligns ifuel : Nat) : Nat → Nat → CalState → Option CalState
  | 0, _, _ => none
  | fuel + 1, i, st =>
    if i < nseqs then
      match innerLoop nseqs stride max_aligns i ifuel (i + 1) st with
      | none => none
      | some st1 =>
        if st1.npairs ≥ max_aligns then some st1
        else outerLoop nseqs stride max_aligns ifuel fuel (i + stride) st1
    else some st

/-- Line 218-220: `n_iters = (int) (2 * sqrt((double) max_aligns)) + 2`, with the
square root taken exactly: `⌊2·√m⌋ = ⌊√(4m)⌋`, the integer square root of `4m`. -/
def n_iters_capped (max_aligns : Nat) : Nat :=
  Nat.sqrt (4 * max_aligns) + 2

/-- The exact number of unordered pairs of `n` sequences, `n(n-1)/2`, as the
claims word it. -/
def pair_count (n : Nat) : Nat :=
  n * (n - 1) / 2

/-- The value a 32-bit two's-complement `int` holds when the exact result of an
operation is `x`. -/
def wrap32 (x : Int) : Int :=
  (x + 2147483648) % 4294967296 - 2147483648

/-- Conversion of an `int` to the 64-bit `size_t`. -/
def to_size_t (x : Int) : Nat :=
  (x % 18446744073709551616).toNat

/-- The expression `nseqs * (nseqs-1)/2` of lines 218 and 223 as the code
computes it: subtraction and product in `int`, division truncating. -/
def pair_count_int (nseqs : Int) : Int :=
  Int.tdiv (wrap32 (nseqs * wrap32 (nseqs - 1))) 2

/-- Lines 218-226: the cap, `n_iters` and the stride chosen from the `int`
`nseqs` and the requested cap, as `(max_aligns, n_iters, stride)`.  The test of
line 218 compares the `size_t` cap with the `int` pair count converted to
`size_t`; line 223 stores that converted value in `max_aligns`. -/
def sampling_plan (nseqs : Int) (max_aligns : Nat) : Nat × Int × Int :=
  if max_aligns < to_size_t (pair_count_int nseqs) then
    (max_aligns, (n_iters_capped max_aligns : Int),
      Int.tdiv nseqs (n_iters_capped max_aligns : Int))
  else
    (to_size_t (pair_count_int nseqs), nseqs, 1)

/-- What `calibrate_kmers` hands back: the final cap (the length the two
vectors were created with), the number of comparisons done, the table, the log
of writes, whether a write left the vectors, and whether the warning of line
261 was printed. -/
structure CalResult where
  max_aligns : Nat
  npairs : Nat
  rows : List (Option (Nat × Nat))
  log : List (Nat × Nat × Nat)
  oob : Bool
  warned : Bool
  deriving DecidableEq, Repr

/-- The index pairs compared, in the order of comparison. -/
def CalResult.pairs (r : CalResult) : List (Nat × Nat) :=
  r.log.map (fun e => e.2)

/-- The row indices written, in the order of writing. -/
def CalResult.written (r : CalResult) : List Nat :=
  r.log.map (fun e => e.1)

/-- The function `calibrate_kmers` (lines 205-264) for a list of `seqs_size`
sequences and a requested cap `max_aligns`, run with `fuel` units of fuel for
each loop.  `nseqs` is `seqs.size()` stored in an `int`.  The loops count up
from 0, so they are run with the bound `nseqs.toNat` (no pass when
`nseqs ≤ 0`) and the stride `stride.toNat` (the stride is negative only when
`nseqs` is, and then no pass is made). -/
def calibrate_kmers (seqs_size max_aligns fuel : Nat) : Option CalResult :=
  let nseqs : Int := wrap32 seqs_size
  let plan := sampling_plan nseqs max_aligns
  let cap := plan.1
  let stride := plan.2.2
  let st0 : CalState :=
    { npairs := 0, rows := List.replicate cap none, log := [], oob := false }
  match outerLoop nseqs.toNat stride.toNat cap fuel fuel 0 st0 with
  | none => none
  | some st =>
    some { max_aligns := cap
           npairs := st.npairs
           rows := st.rows
           log := st.log
           oob := st.oob
           warned := decide (st.npairs ≠ cap) }

/-- The full enumeration the uncapped branch is meant to produce, row `i` from
column `j` on: `(i, j), (i, j+1), ..., (i, n-1)`. -/
def rowPairs (n i j : Nat) : List (Nat × Nat) :=
  (List.range' j (n - j)).map (fun c => (i, c))

/-- All pairs `(a, b)` with `i ≤ a < b < n`, row after row. -/
def pairsFrom (n i : Nat) : List (Nat × Nat) :=
  (List.range' i (n - i)).flatMap (fun a => rowPairs n a (a + 1))

/-- All unordered pairs of `n` sequences, as the claim words them: every
`(i, j)` with `0 ≤ i < j < n`, in lexicographic order. -/
def allPairs (n : Nat) : List (Nat × Nat) :=
  pairsFrom n 0

/-- Strict lexicographic order on index pairs. -/
def lexLt (a b : Nat × Nat) : Prop :=
  a.1 < b.1 ∨ (a.1 = b.1 ∧ a.2 < b.2)

/-- Loop invariant of the sampler while no write has left the vectors: the
first `npairs` rows are exactly the logged comparisons, the remaining rows are
untouched, and the logged row indices are `0, 1, ..., npairs-1`. -/
def CalInv (M : Nat) (st : CalState) : Prop :=
  st.rows = st.log.map (fun e => some e.2) ++ List.replicate (M - st.npairs) none ∧
  st.log.map (fun e => e.1) = List.range st.npairs ∧
  st.npairs ≤ M ∧ st.oob = false

/-! ## `run_dada` -/

/-- A call into the clustering engine, as it appears in the step log; a
`b_bud` entry carries the value the call returned. -/
inductive Step where
  | b_new
  | b_fam_update
  | b_p_update
  | b_bud (newi : Int)
  | b_consensus_update
  | b_lambda_update
  | b_shuffle
  deriving DecidableEq, Repr

/-- The routines of `dada.h` and of the Rcpp layer that `Rmain.cpp` calls and
does not define, taken as parameters.  `U` is `Uniques`, `B` the partition,
`R` the type of a C `double`, `T` the transition matrix handed back to R.
The partition is passed through each routine instead of being mutated in
place; `nclust` is the field `bb->nclust`. -/
structure Engine (U R B T : Type) where
  uniques_from_vectors : List String → List Int → U
  as_double : List R → R
  as_bool : List R → Bool
  as_bool_logical : List Int → Bool
  b_new : U → (Fin 4 → Fin 4 → R) → (Fin 4 → Fin 4 → R) → R → R → Bool → R → B
  b_fam_update : B → B
  b_p_update : B → B
  b_bud : B → B × Int
  b_consensus_update : B → B
  b_lambda_update : B → Bool → R → B
  b_shuffle : B → B
  nclust : B → Nat
  b_get_seqs : B → Nat → String
  b_get_abunds : B → Nat → Int
  b_get_trans_matrix : B → T

/-- The local variables `bb` and `newi` of `run_dada`, with the log of the
engine calls made so far. -/
structure RunState (B : Type) where
  bb : B
  newi : Int
  trace : List Step

variable {U R B T : Type}

/-- Lines 163-166: the calls made before the loop. -/
def run_dada_init (E : Engine U R B T) (uniques : U) (score err : Fin 4 → Fin 4 → R)
    (gap_pen omegaA : R) (use_singletons : Bool) (omegaS : R) : RunState B :=
  let bb := E.b_new uniques err score gap_pen omegaA use_singletons omegaS
  let bb := E.b_fam_update bb
  let bb := E.b_p_update bb
  let r := E.b_bud bb
  { bb := r.1, newi := r.2,
    trace := [Step.b_new, Step.b_fam_update, Step.b_p_update, Step.b_bud r.2] }

/-- Lines 170-176: one pass through the body of the `while` loop. -/
def run_dada_round (E : Engine U R B T) (use_kmers : Bool) (kdist_cutoff : R)
    (s : RunState B) : RunState B :=
  let bb := E.b_consensus_update s.bb
  let bb := E.b_lambda_update bb use_kmers kdist_cutoff
  let bb := E.b_shuffle bb
  let bb := E.b_consensus_update bb
  let bb := E.b_fam_update bb
  let bb := E.b_p_update bb
  let r := E.b_bud bb
  { bb := r.1, newi := r.2,
    trace := s.trace ++ [Step.b_consensus_update, Step.b_lambda_update, Step.b_shuffle,
      Step.b_consensus_update, Step.b_fam_update, Step.b_p_update, Step.b_bud r.2] }

/-- The loop `while(newi) { ... }` of lines 168-177, cut off after `fuel`
passes: the state in which the loop was left, or the state reached when the
fuel ran out. -/
def run_dada_loop (E : Engine U R B T) (use_kmers : Bool) (kdist_cutoff : R) :
    Nat → RunState B → RunState B
  | 0, s => s
  | fuel + 1, s =>
    if s.newi ≠ 0 then run_dada_loop E use_kmers kdist_cutoff fuel
      (run_dada_round E use_kmers kdist_cutoff s)
    else s

/-- The function `run_dada` (lines 160-179) with at most `fuel` passes through the loop:
`some` final state when the loop was left (`newi = 0`), `none` when the fuel
ran out first. -/
def run_dada (E : Engine U R B T) (uniques : U) (score err : Fin 4 → Fin 4 → R) (gap_pen : R)
    (use_kmers : Bool) (kdist_cutoff omegaA : R) (use_singletons : Bool) (omegaS : R)
    (fuel : Nat) : Option (RunState B) :=
  let s := run_dada_loop E use_kmers kdist_cutoff fuel
    (run_dada_init E uniques score err gap_pen omegaA use_singletons omegaS)
  if s.newi = 0 then some s else none

/-- The six steps of a round that come before its `b_bud` (lines 170-175). -/
def roundBody : List Step :=
  [Step.b_consensus_update, Step.b_lambda_update, Step.b_shuffle, Step.b_consensus_update,
    Step.b_fam_update, Step.b_p_update]

/-- The step sequence the claim describes: `b_new, b_fam_update, b_p_update`,
then for each `b_bud` result `r` of `pre` the call `b_bud` followed by the six
steps of a round, then the `b_bud` call that returned `last`. -/
def expectedTrace (pre : List Int) (last : Int) : List Step :=
  [Step.b_new, Step.b_fam_update, Step.b_p_update] ++
    pre.flatMap (fun r => Step.b_bud r :: roundBody) ++ [Step.b_bud last]

/-! ## `dada_uniques` -/

/-- An `Rcpp::NumericMatrix`: its dimensions and its entries. -/
structure RMatrix (R : Type) where
  nrow : Nat
  ncol : Nat
  get : Nat → Nat → R

/-- The arguments of `dada_uniques`. -/
structure DadaArgs (R : Type) where
  seqs : List String
  abundances : List Int
  err : RMatrix R
  score : RMatrix R
  gap : List R
  use_kmers : List R
  kdist_cutoff : List R
  omegaA : List R
  use_singletons : List Int
  omegaS : List R

/-- A call made by `dada_uniques`, directly or through `run_dada`. -/
inductive Call where
  | uniques_from_vectors
  | test_dada
  | run_dada
  | engine (s : Step)
  | uniques_free
  | b_get_seqs
  | b_get_abunds
  | b_get_trans_matrix
  | b_free
  deriving DecidableEq, Repr

/-- A line printed on `Rcout` before an early return. -/
inductive Diag where
  | different_input_lengths (len1 len2 : Nat)
  | score_matrix_malformed (nrow ncol : Nat)
  | error_matrix_malformed (nrow ncol : Nat)
  | gap_penalty_not_length_1 (len1 : Nat)
  | use_kmers_not_length_1 (len1 : Nat)
  | kdist_cutoff_not_length_1 (len1 : Nat)
  | omegaA_not_length_1 (len1 : Nat)
  | use_singletons_not_length_1 (len1 : Nat)
  | omegaS_not_length_1 (len1 : Nat)
  deriving DecidableEq, Repr

/-- The value handed back to R: `R_NilValue`, the empty list of the TESTING
diversion, or the list of line 157 with its two named entries (`genotypes` is
the data frame of sequence / abundance columns). -/
inductive RValue (T : Type) where
  | R_NilValue
  | empty_list
  | genotypes_trans (genotypes : List (String × Int)) (trans : T)

/-- The names of the entries of a returned list. -/
def RValue.names : RValue T → List String
  | RValue.R_NilValue => []
  | RValue.empty_list => []
  | RValue.genotypes_trans _ _ => ["genotypes", "trans"]

/-- Whether the returned value is `R_NilValue`. -/
def RValue.isNil : RValue T → Bool
  | RValue.R_NilValue => true
  | _ => false

/-- One finished call of `dada_uniques`: the value returned, what was printed,
and the calls made, in order. -/
structure Outcome (T : Type) where
  ret : RValue T
  printed : List Diag
  calls : List Call

/-- An early return of `R_NilValue` after printing `d`, with the calls made up
to that point. -/
def Outcome.fail (d : Diag) (calls : List Call) : Outcome T :=
  { ret := RValue.R_NilValue, printed := [d], calls := calls }

/-- Lines 135-157: the data frame and the list built from the final partition. -/
def extract_output (E : Engine U R B T) (bb : B) : RValue T :=
  RValue.genotypes_trans
    ((List.range (E.nclust bb)).map (fun i => (E.b_get_seqs bb i, E.b_get_abunds bb i)))
    (E.b_get_trans_matrix bb)

/-- The function `dada_uniques` (lines 34-158).  `TESTING` is the macro of `dada.h`; `fuel`
bounds the rounds of `run_dada`, and `none` is a call that is still inside
`run_dada` when the fuel runs out. -/
def dada_uniques (E : Engine U R B T) (TESTING : Bool) (a : DadaArgs R) (fuel : Nat) :
    Option (Outcome T) :=
  let len1 := a.seqs.length
  let len2 := a.abundances.length
  if len1 ≠ len2 then some (Outcome.fail (Diag.different_input_lengths len1 len2) []) else
  let uniques := E.uniques_from_vectors a.seqs a.abundances
  let made := [Call.uniques_from_vectors]
  if a.score.nrow ≠ 4 ∨ a.score.ncol ≠ 4 then
    some (Outcome.fail (Diag.score_matrix_malformed a.score.nrow a.score.ncol) made) else
  let c_score : Fin 4 → Fin 4 → R := fun i j => a.score.get i j
  if a.err.nrow ≠ 4 ∨ a.err.ncol ≠ 4 then
    some (Outcome.fail (Diag.error_matrix_malformed a.err.nrow a.err.ncol) made) else
  let c_err : Fin 4 → Fin 4 → R := fun i j => a.err.get i j
  if a.gap.length ≠ 1 then
    some (Outcome.fail (Diag.gap_penalty_not_length_1 a.gap.length) made) else
  let c_gap := E.as_double a.gap
  if a.use_kmers.length ≠ 1 then
    some (Outcome.fail (Diag.use_kmers_not_length_1 a.use_kmers.length) made) else
  let c_use_kmers := E.as_bool a.use_kmers
  if a.kdist_cutoff.length ≠ 1 then
    some (Outcome.fail (Diag.kdist_cutoff_not_length_1 a.kdist_cutoff.length) made) else
  let c_kdist_cutoff := E.as_double a.kdist_cutoff
  if a.omegaA.length ≠ 1 then
    some (Outcome.fail (Diag.omegaA_not_length_1 a.omegaA.length) made) else
  let c_omegaA := E.as_double a.omegaA
  if a.use_singletons.length ≠ 1 then
    some (Outcome.fail (Diag.use_singletons_not_length_1 a.use_singletons.length) made) else
  let c_use_singletons := E.as_bool_logical a.use_singletons
  if a.omegaS.length ≠ 1 then
    some (Outcome.fail (Diag.omegaS_not_length_1 a.omegaS.length) made) else
  let c_omegaS := E.as_double a.omegaS
  if TESTING then
    some { ret := RValue.empty_list, printed := [], calls := made ++ [Call.test_dada] }
  else
    match run_dada E uniques c_score c_err c_gap c_use_kmers c_kdist_cutoff c_omegaA
        c_use_singletons c_omegaS fuel with
    | none => none
    | some s =>
      some { ret := extract_output E s.bb
             printed := []
             calls := made ++ [Call.run_dada] ++ s.trace.map Call.engine ++
               [Call.uniques_free, Call.b_get_seqs, Call.b_get_abunds,
                Call.b_get_trans_matrix, Call.b_free] }

/-- The call of line 132 on the converted arguments of lines 49-123. -/
def engine_call (E : Engine U R B T) (a : DadaArgs R) (fuel : Nat) : Option (RunState B) :=
  run_dada E (E.uniques_from_vectors a.seqs a.abundances)
    (fun i j => a.score.get i j) (fun i j => a.err.get i j) (E.as_double a.gap)
    (E.as_bool a.use_kmers) (E.as_double a.kdist_cutoff) (E.as_double a.omegaA)
    (E.as_bool_logical a.use_singletons) (E.as_double a.omegaS) fuel

/-- The precondition failures as the claims list them: different lengths of
`seqs` and `abundances`, a score or error matrix that is not 4x4, or a scalar
parameter whose length is not exactly 1. -/
def precond_fails (a : DadaArgs R) : Prop :=
  a.seqs.length ≠ a.abundances.length ∨
  ¬ (a.score.nrow = 4 ∧ a.score.ncol = 4) ∨
  ¬ (a.err.nrow = 4 ∧ a.err.ncol = 4) ∨
  a.gap.length ≠ 1 ∨ a.use_kmers.length ≠ 1 ∨ a.kdist_cutoff.length ≠ 1 ∨
  a.omegaA.length ≠ 1 ∨ a.use_singletons.length ≠ 1 ∨ a.omegaS.length ≠ 1

instance (a : DadaArgs R) : Decidable (precond_fails a) := by
  unfold precond_fails
  infer_instance

/-- The partitions that can occur in a run that starts from the partition `b0`:
`b0` itself and whatever the engine steps called by `run_dada` make of it. -/
inductive Occurs (E : Engine U R B T) (b0 : B) : B → Prop where
  | start : Occurs E b0 b0
  | fam_update {b : B} : Occurs E b0 b → Occurs E b0 (E.b_fam_update b)
  | p_update {b : B} : Occurs E b0 b → Occurs E b0 (E.b_p_update b)
  | bud {b : B} : Occurs E b0 b → Occurs E b0 (E.b_bud b).1
  | consensus_update {b : B} : Occurs E b0 b → Occurs E b0 (E.b_consensus_update b)
  | lambda_update {b : B} (k : Bool) (c : R) :
      Occurs E b0 b → Occurs E b0 (E.b_lambda_update b k c)
  | shuffle {b : B} : Occurs E b0 b → Occurs E b0 (E.b_shuffle b)

/-- The reason the spec gives for termination, as C7 states it, for the run
that starts from the partition `b0`: a `b_bud` call that returns nonzero
strictly increases the number of Clusters, no other step decreases it, and the
number of Clusters never exceeds `D`, the number of distinct input sequences. -/
structure BudBounded (E : Engine U R B T) (D : Nat) (b0 : B) : Prop where
  bud_increases : ∀ b, Occurs E b0 b → (E.b_bud b).2 ≠ 0 →
    E.nclust b < E.nclust (E.b_bud b).1
  fam_update_keeps : ∀ b, Occurs E b0 b → E.nclust b ≤ E.nclust (E.b_fam_update b)
  p_update_keeps : ∀ b, Occurs E b0 b → E.nclust b ≤ E.nclust (E.b_p_update b)
  consensus_update_keeps : ∀ b, Occurs E b0 b →
    E.nclust b ≤ E.nclust (E.b_consensus_update b)
  lambda_update_keeps : ∀ b k c, Occurs E b0 b →
    E.nclust b ≤ E.nclust (E.b_lambda_update b k c)
  shuffle_keeps : ∀ b, Occurs E b0 b → E.nclust b ≤ E.nclust (E.b_shuffle b)
  bounded : ∀ b, Occurs E b0 b → E.nclust b ≤ D

/-- The effect on the partition of the engine call a log entry names, made
with the arguments `run_dada` passes: `b_new` builds the partition, every
other routine is applied to the partition at hand, and a `b_bud r` entry is
accepted only when `b_bud` really returns `r` there.  `none` is "no partition
yet" or "the entry does not match the call". -/
def apply_step (E : Engine U R B T) (uniques : U) (score err : Fin 4 → Fin 4 → R)
    (gap_pen omegaA : R) (use_singletons : Bool) (omegaS : R) (use_kmers : Bool)
    (kdist_cutoff : R) : Option B → Step → Option B
  | _, Step.b_new => some (E.b_new uniques err score gap_pen omegaA use_singletons omegaS)
  | some b, Step.b_fam_update => some (E.b_fam_update b)
  | some b, Step.b_p_update => some (E.b_p_update b)
  | some b, Step.b_bud r => if (E.b_bud b).2 = r then some (E.b_bud b).1 else none
  | some b, Step.b_consensus_update => some (E.b_consensus_update b)
  | some b, Step.b_lambda_update => some (E.b_lambda_update b use_kmers kdist_cutoff)
  | some b, Step.b_shuffle => some (E.b_shuffle b)
  | none, _ => none

/-- The partition obtained by making the engine calls of a log one after the
other, in the order of the log. -/
def replay (E : Engine U R B T) (uniques : U) (score err : Fin 4 → Fin 4 → R)
    (gap_pen omegaA : R) (use_singletons : Bool) (omegaS : R) (use_kmers : Bool)
    (kdist_cutoff : R) (trace : List Step) : Option B :=
  trace.foldl
    (apply_step E uniques score err gap_pen omegaA use_singletons omegaS use_kmers kdist_cutoff)
    none

/-- The log has the claimed shape for `b_bud` results `pre` (all nonzero) and
`last` (the value now in `newi`). -/
def TraceShape (s : RunState B) (pre : List Int) (last : Int) : Prop :=
  s.trace = expectedTrace pre last ∧ (∀ r ∈ pre, r ≠ 0) ∧ s.newi = last

/-- The calls logged on the way through a successful call of `dada_uniques`. -/
def success_calls (trace : List Step) : List Call :=
  [Call.uniques_from_vectors] ++ [Call.run_dada] ++ trace.map Call.engine ++
    [Call.uniques_free, Call.b_get_seqs, Call.b_get_abunds, Call.b_get_trans_matrix,
      Call.b_free]

/-! ## A concrete engine and concrete arguments -/

/-- A small engine on which the functions can be run: the partition is its
number of clusters, `b_new` starts with one cluster and `b_bud` splits off a
new one (returning its index) while there are fewer than three. -/
def demoEngine : Engine Unit Nat Nat Unit where
  uniques_from_vectors := fun _ _ => ()
  as_double := fun l => l.headD 0
  as_bool := fun l => decide (l.headD 0 ≠ 0)
  as_bool_logical := fun l => decide (l.headD 0 ≠ 0)
  b_new := fun _ _ _ _ _ _ _ => 1
  b_fam_update := fun b => b
  b_p_update := fun b => b
  b_bud := fun b => if b < 3 then (b + 1, (b : Int)) else (b, 0)
  b_consensus_update := fun b => b
  b_lambda_update := fun b _ _ => b
  b_shuffle := fun b => b
  nclust := fun b => min b 3
  b_get_seqs := fun _ _ => "A"
  b_get_abunds := fun _ _ => 1
  b_get_trans_matrix := fun _ => ()

/-- A `d` x `d` matrix of zeros. -/
def demoMatrix (d : Nat) : RMatrix Nat :=
  { nrow := d, ncol := d, get := fun _ _ => 0 }

/-- Three sequences, `nabund` abundances, a 4x4 error matrix, a `d` x `d` score
matrix and scalar parameters of length 1. -/
def demoArgs (nabund d : Nat) : DadaArgs Nat :=
  { seqs := ["A", "C", "G"]
    abundances := List.replicate nabund 1
    err := demoMatrix 4
    score := demoMatrix d
    gap := [0]
    use_kmers := [1]
    kdist_cutoff := [0]
    omegaA := [0]
    use_singletons := [0]
    omegaS := [0] }

/-! ### The `int` computations inside their range -/

theorem wrap32_of_range (x : Int) (h0 : -2147483648 ≤ x) (h1 : x < 2147483648) :
    wrap32 x = x := by
  unfold wrap32
  omega

theorem lt_of_product_small {n : Nat} (h : n * (n - 1) < 2147483648) : n < 2147483648 := by
  by_contra hc
  have h1 : 1 ≤ n - 1 := by omega
  have h2 : n * 1 ≤ n * (n - 1) := Nat.mul_le_mul_left n h1
  omega

theorem wrap32_size {n : Nat} (h : n * (n - 1) < 2147483648) : wrap32 (n : Int) = (n : Int) :=
  wrap32_of_range _ (by omega) (by have := lt_of_product_small h; omega)

/-- While the product `n * (n-1)` fits an `int`, the code's pair count is the
exact one. -/
theorem pair_count_int_of_small {n : Nat} (h : n * (n - 1) < 2147483648) :
    to_size_t (pair_count_int (wrap32 (n : Int))) = pair_count n := by
  have hn := lt_of_product_small h
  have hprod : (n : Int) * ((n : Int) - 1) = ((n * (n - 1) : Nat) : Int) := by
    cases n with
    | zero => simp
    | succ k =>
      push_cast
      simp
  have hpc : pair_count n < 2147483648 := by
    unfold pair_count
    omega
  unfold pair_count_int
  rw [wrap32_size h, wrap32_of_range ((n : Int) - 1) (by omega) (by omega), hprod,
    wrap32_of_range _ (by omega) (by omega), Int.tdiv_eq_ediv (by omega) (by omega)]
  unfold to_size_t pair_count
  generalize n * (n - 1) = k at h
  omega

theorem sampling_plan_capped {n m : Nat} (h : n * (n - 1) < 2147483648)
    (h2 : m < pair_count n) :
    sampling_plan (wrap32 (n : Int)) m =
      (m, (n_iters_capped m : Int), ((n / n_iters_capped m : Nat) : Int)) := by
  unfold sampling_plan
  rw [pair_count_int_of_small h, if_pos h2, wrap32_size h, ← Int.ofNat_tdiv]

theorem sampling_plan_uncapped {n m : Nat} (h : n * (n - 1) < 2147483648)
    (h2 : pair_count n ≤ m) :
    sampling_plan (wrap32 (n : Int)) m = (pair_count n, (n : Int), 1) := by
  unfold sampling_plan
  rw [pair_count_int_of_small h, if_neg (by omega), wrap32_size h]

/-! ### Invariant lemmas -/

theorem CalInv.log_length {M : Nat} {st : CalState} (h : CalInv M st) :
    st.log.length = st.npairs := by
  have h2 := congrArg List.length h.2.1
  simpa using h2

theorem CalInv.rows_length {M : Nat} {st : CalState} (h : CalInv M st) :
    st.rows.length = M := by
  have h1 := congrArg List.length h.1
  have h2 := h.log_length
  have h3 := h.2.2.1
  simp at h1
  omega

theorem CalInv.init (M : Nat) :
    CalInv M { npairs := 0, rows := List.replicate M none, log := [], oob := false } := by
  simp [CalInv]

theorem CalInv.record {M : Nat} {st : CalState} (h : CalInv M st) (hlt : st.npairs < M)
    (i j : Nat) : CalInv M (st.record i j) := by
  have hlen := h.log_length
  have hrl := h.rows_length
  obtain ⟨h1, h2, h3, h4⟩ := h
  refine ⟨?_, ?_, ?_, ?_⟩
  · obtain ⟨d, hd⟩ : ∃ d, M - st.npairs = d + 1 := ⟨M - st.npairs - 1, by omega⟩
    have hd2 : M - (st.npairs + 1) = d := by omega
    simp only [CalState.record, hd2]
    rw [h1, hd, List.set_append_right _ _ (by simp [hlen])]
    simp [hlen, List.replicate_succ]
  · simp only [CalState.record, List.map_append, h2, List.range_succ]
    simp
  · simp only [CalState.record]
    omega
  · simp only [CalState.record, h4, hrl]
    simp
    omega

@[simp] theorem CalState.record_npairs (st : CalState) (i j : Nat) :
    (st.record i j).npairs = st.npairs + 1 := rfl

theorem CalState.record_pairs (st : CalState) (i j : Nat) :
    (st.record i j).log.map (fun e => e.2) = st.log.map (fun e => e.2) ++ [(i, j)] := by
  simp [CalState.record]

/-! ### The capped branch reaches its cap -/

/-- One run of the inner loop below the cap: it returns, keeps the invariant,
and either reaches the cap or performs every iteration that is available. -/
theorem innerLoop_capped (n s M i : Nat) :
    ∀ (fuel j : Nat) (st : CalState), CalInv M st → st.npairs < M → M - st.npairs ≤ fuel →
      ∃ st1, innerLoop n s M i fuel j st = some st1 ∧ CalInv M st1 ∧
        st.npairs ≤ st1.npairs ∧
        (st1.npairs = M ∨ ∀ t, j + t * s < n → st.npairs + t + 1 ≤ st1.npairs) := by
  intro fuel
  induction fuel with
  | zero => intro j st _ hlt hf; omega
  | succ f ih =>
    intro j st hinv hlt hf
    by_cases hj : j < n
    · have hrec := hinv.record hlt i j
      by_cases hb : (st.record i j).npairs ≥ M
      · refine ⟨st.record i j, ?_, hrec, by simp, Or.inl ?_⟩
        · simp only [innerLoop, if_pos hj, if_pos hb]
        · have := hrec.2.2.1
          omega
      · have hlt1 : (st.record i j).npairs < M := by omega
        obtain ⟨st1, he, hi1, hle, hpr⟩ :=
          ih (j + s) (st.record i j) hrec hlt1 (by simp only [CalState.record_npairs]; omega)
        refine ⟨st1, ?_, hi1, ?_, ?_⟩
        · simp only [innerLoop, if_pos hj, if_neg hb]
          exact he
        · simp only [CalState.record_npairs] at hle
          omega
        · rcases hpr with hpr | hpr
          · exact Or.inl hpr
          · right
            intro t ht
            simp only [CalState.record_npairs] at hle hpr
            cases t with
            | zero => omega
            | succ t =>
              have := hpr t (by
                have : j + (t + 1) * s = j + s + t * s := by ring
                omega)
              omega
    · refine ⟨st, ?_, hinv, le_refl _, Or.inr ?_⟩
      · simp [innerLoop, hj]
      · intro t ht
        have : j ≤ j + t * s := Nat.le_add_right _ _
        omega

/-- With a positive stride and `k + r` strided start points inside the
sequence set, the outer loop entered at the `k`-th start point reaches the cap
as soon as the `r * (r-1) / 2` pairs among the remaining start points cover the
rows still missing. -/
theorem outerLoop_capped (n s M ifuel : Nat) (hs : 1 ≤ s) (hif : M ≤ ifuel) :
    ∀ (r fuel k : Nat) (st : CalState), CalInv M st → st.npairs < M →
      2 * M ≤ 2 * st.npairs + r * (r - 1) → (k + r) * s ≤ n → r ≤ fuel →
      ∃ st1, outerLoop n s M ifuel fuel (k * s) st = some st1 ∧ CalInv M st1 ∧
        st1.npairs = M := by
  intro r
  induction r with
  | zero => intro fuel k st _ hlt h2; simp at h2; omega
  | succ r ih =>
    intro fuel k st hinv hlt h2 hn hf
    obtain ⟨f, rfl⟩ : ∃ f, fuel = f + 1 := ⟨fuel - 1, by omega⟩
    have hexp : (k + (r + 1)) * s = k * s + r * s + s := by ring
    have hi : k * s < n := by
      have : 0 ≤ r * s := Nat.zero_le _
      omega
    obtain ⟨st1, he, hi1, hle, hpr⟩ :=
      innerLoop_capped n s M (k * s) ifuel (k * s + 1) st hinv hlt (by omega)
    by_cases hb : st1.npairs ≥ M
    · refine ⟨st1, ?_, hi1, ?_⟩
      · simp only [outerLoop, if_pos hi, he, if_pos hb]
      · have := hi1.2.2.1
        omega
    · have hlt1 : st1.npairs < M := by omega
      rcases hpr with hpr | hpr
      · omega
      · cases r with
        | zero => simp at h2; omega
        | succ r =>
          have hstep := hpr r (by
            have : (k + (r + 1 + 1)) * s = k * s + r * s + s + s := by ring
            omega)
          have hq : (r + 1 + 1) * (r + 1 + 1 - 1) = 2 * (r + 1) + (r + 1) * (r + 1 - 1) := by
            simp only [Nat.add_sub_cancel]
            ring
          obtain ⟨st2, he2, hi2, hp2⟩ := ih f (k + 1) st1 hi1 hlt1 (by omega)
            (by
              have : (k + 1 + (r + 1)) * s = (k + (r + 1 + 1)) * s := by ring
              omega)
            (by omega)
          refine ⟨st2, ?_, hi2, hp2⟩
          simp only [outerLoop, if_pos hi, he, if_neg hb]
          have : k * s + s = (k + 1) * s := by ring
          rw [this]
          exact he2

/-- With stride 0 and at least two sequences the inner loop entered at `j = 1`
stays on the pair `(0, 1)` until the cap is reached. -/
theorem outerLoop_stride_zero (n M ifuel fuel : Nat) (hn : 2 ≤ n) (hif : M ≤ ifuel)
    (hf : 1 ≤ fuel) (st : CalState) (hinv : CalInv M st) (hlt : st.npairs < M) :
    ∃ st1, outerLoop n 0 M ifuel fuel 0 st = some st1 ∧ CalInv M st1 ∧ st1.npairs = M ∧
      innerLoop n 0 M 0 ifuel 1 st = some st1 := by
  obtain ⟨f, rfl⟩ : ∃ f, fuel = f + 1 := ⟨fuel - 1, by omega⟩
  obtain ⟨st1, he, hi1, _, hpr⟩ :=
    innerLoop_capped n 0 M 0 ifuel (0 + 1) st hinv hlt (by omega)
  have hM : st1.npairs = M := by
    rcases hpr with hpr | hpr
    · exact hpr
    · have := hpr M (by omega)
      have := hi1.2.2.1
      omega
  refine ⟨st1, ?_, hi1, hM, he⟩
  have hb : st1.npairs ≥ M := by omega
  simp only [outerLoop, if_pos (show 0 < n by omega), he, if_pos hb]

/-- With stride 0 the inner loop entered at `j` logs no pair other than
`(i, j)`. -/
theorem innerLoop_stride_zero_log (n M i : Nat) :
    ∀ (fuel j : Nat) (st st1 : CalState), innerLoop n 0 M i fuel j st = some st1 →
      ∀ e ∈ st1.log, e ∈ st.log ∨ e.2 = (i, j) := by
  intro fuel
  induction fuel with
  | zero =>
    intro j st st1 h
    simp [innerLoop] at h
  | succ f ih =>
    intro j st st1 h e he
    by_cases hj : j < n
    · by_cases hb : (st.record i j).npairs ≥ M
      · simp only [innerLoop, if_pos hj, if_pos hb, Option.some.injEq] at h
        subst h
        simp only [CalState.record, List.mem_append, List.mem_singleton] at he
        rcases he with he | he
        · exact Or.inl he
        · exact Or.inr (by rw [he])
      · simp only [innerLoop, if_pos hj, if_neg hb, Nat.add_zero] at h
        rcases ih j _ st1 h e he with h1 | h1
        · simp only [CalState.record, List.mem_append, List.mem_singleton] at h1
          rcases h1 with h1 | h1
          · exact Or.inl h1
          · exact Or.inr (by rw [h1])
        · exact Or.inr h1
    · simp only [innerLoop, if_neg hj, Option.some.injEq] at h
      subst h
      exact Or.inl he

/-- The arithmetic behind the comment of line 220, doubled to avoid the
division: `n_iters * (n_iters - 1) ≥ 4 * max_aligns + 2`. -/
theorem n_iters_capped_double (m : Nat) :
    4 * m + 2 ≤ n_iters_capped m * (n_iters_capped m - 1) := by
  unfold n_iters_capped
  have h := Nat.lt_succ_sqrt (4 * m)
  simp only [Nat.succ_eq_add_one] at h
  have e : (Nat.sqrt (4 * m) + 2) * (Nat.sqrt (4 * m) + 2 - 1) =
      (Nat.sqrt (4 * m) + 1) * (Nat.sqrt (4 * m) + 1) + (Nat.sqrt (4 * m) + 1) := by
    simp only [Nat.add_sub_cancel, show Nat.sqrt (4 * m) + 2 - 1 = Nat.sqrt (4 * m) + 1 by omega]
    ring
  rw [e]
  omega

/-- The iteration count from the two inequalities that pin down the integer
square root. -/
theorem n_iters_capped_eq (m q : Nat) (h1 : q * q ≤ 4 * m) (h2 : 4 * m < (q + 1) * (q + 1)) :
    n_iters_capped m = q + 2 := by
  unfold n_iters_capped
  rw [← Nat.eq_sqrt.2 ⟨h1, h2⟩]

theorem pair_count_pos_two_le {n m : Nat} (h : m < pair_count n) : 2 ≤ n := by
  unfold pair_count at h
  by_contra hc
  have : n = 0 ∨ n = 1 := by omega
  rcases this with rfl | rfl <;> simp at h

/-- The capped branch, for a cap of at least one: the loops return and stop with
`npairs` equal to the cap and the invariant intact. -/
theorem outerLoop_capped_reaches (n m fuel : Nat) (h1 : 1 ≤ m) (h2 : m < pair_count n)
    (hf : n + m + 1 ≤ fuel) :
    ∃ st1, outerLoop n (n / n_iters_capped m) m fuel fuel 0
        { npairs := 0, rows := List.replicate m none, log := [], oob := false } = some st1 ∧
      CalInv m st1 ∧ st1.npairs = m := by
  have hn := pair_count_pos_two_le h2
  have hq := n_iters_capped_double m
  rcases Nat.eq_zero_or_pos (n / n_iters_capped m) with hs | hs
  · rw [hs]
    obtain ⟨st1, he, hi1, hp, _⟩ :=
      outerLoop_stride_zero n m fuel fuel hn (by omega) (by omega) _ (CalInv.init m) h1
    exact ⟨st1, he, hi1, hp⟩
  · have hqs : n_iters_capped m * (n / n_iters_capped m) ≤ n := Nat.mul_div_le _ _
    have hqn : n_iters_capped m ≤ n := by
      calc n_iters_capped m = n_iters_capped m * 1 := (Nat.mul_one _).symm
        _ ≤ n_iters_capped m * (n / n_iters_capped m) := Nat.mul_le_mul_left _ hs
        _ ≤ n := hqs
    have := outerLoop_capped n (n / n_iters_capped m) m fuel hs (by omega)
      (n_iters_capped m) fuel 0 _ (CalInv.init m) h1 (by simp only []; omega)
      (by simpa using hqs) (by omega)
    simpa using this

/-! ### The full enumeration -/

theorem rowPairs_cons {n i j : Nat} (h : j < n) :
    rowPairs n i j = (i, j) :: rowPairs n i (j + 1) := by
  unfold rowPairs
  obtain ⟨d, hd⟩ : ∃ d, n - j = d + 1 := ⟨n - j - 1, by omega⟩
  have hd2 : n - (j + 1) = d := by omega
  rw [hd, hd2, List.range'_succ]
  rfl

theorem rowPairs_nil {n i j : Nat} (h : n ≤ j) : rowPairs n i j = [] := by
  unfold rowPairs
  have : n - j = 0 := by omega
  simp [this]

theorem rowPairs_length (n i j : Nat) : (rowPairs n i j).length = n - j := by
  simp [rowPairs]

theorem pairsFrom_cons {n i : Nat} (h : i < n) :
    pairsFrom n i = rowPairs n i (i + 1) ++ pairsFrom n (i + 1) := by
  unfold pairsFrom
  obtain ⟨d, hd⟩ : ∃ d, n - i = d + 1 := ⟨n - i - 1, by omega⟩
  have hd2 : n - (i + 1) = d := by omega
  rw [hd, hd2, List.range'_succ, List.flatMap_cons]

theorem pairsFrom_nil {n i : Nat} (h : n ≤ i) : pairsFrom n i = [] := by
  unfold pairsFrom
  have : n - i = 0 := by omega
  simp [this]

theorem pairsFrom_length_double (n : Nat) :
    ∀ (d i : Nat), n - i = d → 2 * (pairsFrom n i).length = (n - i) * (n - i - 1) := by
  intro d
  induction d with
  | zero =>
    intro i h
    rw [pairsFrom_nil (by omega), h]
    simp
  | succ d ih =>
    intro i h
    have hi : i < n := by omega
    have hrec := ih (i + 1) (by omega)
    rw [pairsFrom_cons hi, List.length_append, rowPairs_length, Nat.mul_add, hrec]
    have e1 : n - (i + 1) = d := by omega
    have e2 : n - i - 1 = d := by omega
    rw [e1, h, Nat.add_sub_cancel]
    cases d with
    | zero => simp
    | succ d =>
      simp only [Nat.add_sub_cancel]
      ring

theorem allPairs_length (n : Nat) : (allPairs n).length = pair_count n := by
  have h := pairsFrom_length_double n n 0 (by simp)
  unfold allPairs pair_count
  simp only [Nat.sub_zero] at h
  rw [← h]
  simp

theorem mem_rowPairs {n i j : Nat} {p : Nat × Nat} :
    p ∈ rowPairs n i j ↔ p.1 = i ∧ j ≤ p.2 ∧ p.2 < n := by
  obtain ⟨a, b⟩ := p
  simp only [rowPairs, List.mem_map, List.mem_range'_1, Prod.mk.injEq]
  constructor
  · rintro ⟨c, ⟨h1, h2⟩, rfl, rfl⟩
    exact ⟨rfl, h1, by omega⟩
  · rintro ⟨rfl, h1, h2⟩
    exact ⟨b, ⟨h1, by omega⟩, rfl, rfl⟩

theorem mem_pairsFrom {n i : Nat} {p : Nat × Nat} :
    p ∈ pairsFrom n i ↔ i ≤ p.1 ∧ p.1 < p.2 ∧ p.2 < n := by
  simp only [pairsFrom, List.mem_flatMap, List.mem_range'_1, mem_rowPairs]
  constructor
  · rintro ⟨a, ⟨h1, h2⟩, h3, h4, h5⟩
    omega
  · rintro ⟨h1, h2, h3⟩
    exact ⟨p.1, ⟨h1, by omega⟩, rfl, by omega, h3⟩

theorem mem_allPairs {n : Nat} {p : Nat × Nat} :
    p ∈ allPairs n ↔ p.1 < p.2 ∧ p.2 < n := by
  simp [allPairs, mem_pairsFrom]

theorem rowPairs_pairwise (n i j : Nat) : (rowPairs n i j).Pairwise lexLt := by
  unfold rowPairs
  rw [List.pairwise_map]
  exact (List.pairwise_lt_range' j (n - j)).imp (fun h => Or.inr ⟨rfl, h⟩)

theorem pairsFrom_pairwise (n : Nat) :
    ∀ (d i : Nat), n - i = d → (pairsFrom n i).Pairwise lexLt := by
  intro d
  induction d with
  | zero =>
    intro i h
    rw [pairsFrom_nil (by omega)]
    exact List.Pairwise.nil
  | succ d ih =>
    intro i h
    rw [pairsFrom_cons (by omega), List.pairwise_append]
    refine ⟨rowPairs_pairwise _ _ _, ih (i + 1) (by omega), ?_⟩
    intro a ha b hb
    rw [mem_rowPairs] at ha
    rw [mem_pairsFrom] at hb
    left
    omega

theorem allPairs_pairwise (n : Nat) : (allPairs n).Pairwise lexLt :=
  pairsFrom_pairwise n n 0 (by simp)

/-! ### The uncapped branch enumerates every pair -/

/-- With stride 1 and enough rows left for the rest of row `i`, the inner loop
compares exactly the pairs `(i, j), ..., (i, n-1)`. -/
theorem innerLoop_full (n M i : Nat) :
    ∀ (fuel j : Nat) (st : CalState), CalInv M st → st.npairs + (n - j) ≤ M → n - j < fuel →
      ∃ st1, innerLoop n 1 M i fuel j st = some st1 ∧ CalInv M st1 ∧
        st1.npairs = st.npairs + (n - j) ∧
        st1.log.map (fun e => e.2) = st.log.map (fun e => e.2) ++ rowPairs n i j := by
  intro fuel
  induction fuel with
  | zero => intro j st _ _ hf; omega
  | succ f ih =>
    intro j st hinv hM hf
    by_cases hj : j < n
    · have hlt : st.npairs < M := by omega
      have hrec := hinv.record hlt i j
      by_cases hb : (st.record i j).npairs ≥ M
      · have hlast : n ≤ j + 1 := by
          simp only [CalState.record_npairs] at hb
          omega
        refine ⟨st.record i j, ?_, hrec, ?_, ?_⟩
        · simp only [innerLoop, if_pos hj, if_pos hb]
        · simp only [CalState.record_npairs]
          omega
        · rw [CalState.record_pairs, rowPairs_cons hj, rowPairs_nil hlast]
      · obtain ⟨st1, he, hi1, hp, hl⟩ := ih (j + 1) (st.record i j) hrec
          (by simp only [CalState.record_npairs]; omega) (by omega)
        refine ⟨st1, ?_, hi1, ?_, ?_⟩
        · simp only [innerLoop, if_pos hj, if_neg hb]
          exact he
        · simp only [CalState.record_npairs] at hp
          omega
        · rw [hl, CalState.record_pairs, rowPairs_cons hj]
          simp
    · refine ⟨st, ?_, hinv, by omega, ?_⟩
      · simp only [innerLoop, if_neg hj]
      · rw [rowPairs_nil (by omega)]
        simp

/-- With stride 1 and enough rows left for every remaining pair, the outer loop
compares exactly the pairs of `pairsFrom n i`, in that order. -/
theorem outerLoop_full (n M ifuel : Nat) (hif : n < ifuel) :
    ∀ (fuel i : Nat) (st : CalState), CalInv M st →
      st.npairs + (pairsFrom n i).length ≤ M → n - i < fuel →
      ∃ st1, outerLoop n 1 M ifuel fuel i st = some st1 ∧ CalInv M st1 ∧
        st1.npairs = st.npairs + (pairsFrom n i).length ∧
        st1.log.map (fun e => e.2) = st.log.map (fun e => e.2) ++ pairsFrom n i := by
  intro fuel
  induction fuel with
  | zero => intro i st _ _ hf; omega
  | succ f ih =>
    intro i st hinv hM hf
    by_cases hi : i < n
    · rw [pairsFrom_cons hi, List.length_append, rowPairs_length] at hM
      obtain ⟨st1, he, hi1, hp, hl⟩ :=
        innerLoop_full n M i ifuel (i + 1) st hinv (by omega) (by omega)
      by_cases hb : st1.npairs ≥ M
      · have hz : pairsFrom n (i + 1) = [] := List.eq_nil_of_length_eq_zero (by omega)
        refine ⟨st1, ?_, hi1, ?_, ?_⟩
        · simp only [outerLoop, if_pos hi, he, if_pos hb]
        · rw [pairsFrom_cons hi, hz, hp]
          simp [rowPairs_length]
        · rw [pairsFrom_cons hi, hz, hl]
          simp
      · obtain ⟨st2, he2, hi2, hp2, hl2⟩ := ih (i + 1) st1 hi1 (by omega) (by omega)
        refine ⟨st2, ?_, hi2, ?_, ?_⟩
        · simp only [outerLoop, if_pos hi, he, if_neg hb]
          exact he2
        · rw [pairsFrom_cons hi, List.length_append, rowPairs_length, hp2, hp]
          omega
        · rw [hl2, hl, pairsFrom_cons hi]
          simp
    · refine ⟨st, ?_, hinv, ?_, ?_⟩
      · simp only [outerLoop, if_neg hi]
      · rw [pairsFrom_nil (by omega)]
        simp
      · rw [pairsFrom_nil (by omega)]
        simp

/-- The result of `calibrate_kmers` from the plan it chooses and the state in
which the loops are left. -/
theorem calibrate_kmers_of_loop (seqs_size m fuel cap n s : Nat) (ni st : Int)
    (hplan : sampling_plan (wrap32 (seqs_size : Int)) m = (cap, ni, st))
    (hn : (wrap32 (seqs_size : Int)).toNat = n) (hs : st.toNat = s) (st1 : CalState)
    (he : outerLoop n s cap fuel fuel 0
      { npairs := 0, rows := List.replicate cap none, log := [], oob := false } = some st1) :
    calibrate_kmers seqs_size m fuel = some
      { max_aligns := cap, npairs := st1.npairs, rows := st1.rows, log := st1.log,
        oob := st1.oob, warned := decide (st1.npairs ≠ cap) } := by
  unfold calibrate_kmers
  simp only [hplan, hn, hs, he]

/-- The uncapped branch as a whole: the cap is lowered to the full pair count,
every pair is compared once in lexicographic order, the table is filled with
them and the warning is not printed. -/
theorem calibrate_kmers_uncapped (n m fuel : Nat) (hsmall : n * (n - 1) < 2147483648)
    (h : pair_count n ≤ m) (hf : n + 1 ≤ fuel) :
    calibrate_kmers n m fuel = some
      { max_aligns := pair_count n
        npairs := pair_count n
        rows := (allPairs n).map some
        log := (List.range (pair_count n)).zip (allPairs n)
        oob := false
        warned := false } := by
  have hplan := sampling_plan_uncapped hsmall h
  rw [wrap32_size hsmall] at hplan
  have hA : pairsFrom n 0 = allPairs n := rfl
  obtain ⟨st1, he, hi1, hp, hl⟩ := outerLoop_full n (pair_count n) fuel (by omega) fuel 0
    { npairs := 0, rows := List.replicate (pair_count n) none, log := [], oob := false }
    (CalInv.init _) (by simp [hA, allPairs_length]) (by omega)
  simp only [hA, allPairs_length, Nat.zero_add, List.map_nil, List.nil_append] at hp hl
  unfold calibrate_kmers
  simp only [hplan, wrap32_size hsmall, Int.toNat_ofNat, show (1 : Int).toNat = 1 from rfl,
    he, hp]
  obtain ⟨hr, hw, _, ho⟩ := hi1
  have hlog : st1.log = (List.range (pair_count n)).zip (allPairs n) := by
    have hz : st1.log = (st1.log.map (fun e => e.1)).zip (st1.log.map (fun e => e.2)) := by
      rw [List.zip_map_left, List.zip_map_right]
      induction st1.log with
      | nil => rfl
      | cons a t ih => simp [← ih]
    rw [hz, hw, hl, hp]
  have hmap : st1.log.map (fun e => some e.2) = (allPairs n).map some := by
    rw [← hl, List.map_map]
    rfl
  rw [hp, Nat.sub_self, List.replicate_zero, List.append_nil, hmap] at hr
  simp [hr, hlog, ho]

/-! ### The round loop -/

theorem run_dada_loop_done (E : Engine U R B T) (uk : Bool) (kc : R) (fuel : Nat)
    (s : RunState B) (h : s.newi = 0) : run_dada_loop E uk kc fuel s = s := by
  cases fuel with
  | zero => rfl
  | succ f => simp [run_dada_loop, h]

theorem run_dada_loop_step (E : Engine U R B T) (uk : Bool) (kc : R) (f : Nat)
    (s : RunState B) (h : s.newi ≠ 0) :
    run_dada_loop E uk kc (f + 1) s = run_dada_loop E uk kc f (run_dada_round E uk kc s) := by
  simp [run_dada_loop, h]

theorem TraceShape.round (E : Engine U R B T) (uk : Bool) (kc : R) {s : RunState B}
    {pre : List Int} {last : Int} (h : TraceShape s pre last) (hne : s.newi ≠ 0) :
    TraceShape (run_dada_round E uk kc s) (pre ++ [last]) (run_dada_round E uk kc s).newi := by
  obtain ⟨h1, h2, h3⟩ := h
  refine ⟨?_, ?_, rfl⟩
  · simp [run_dada_round, h1, expectedTrace, roundBody]
  · intro r hr
    rcases List.mem_append.1 hr with hr | hr
    · exact h2 r hr
    · simp only [List.mem_singleton] at hr
      rw [hr, ← h3]
      exact hne

theorem run_dada_loop_shape (E : Engine U R B T) (uk : Bool) (kc : R) :
    ∀ (fuel : Nat) (s : RunState B) (pre : List Int) (last : Int), TraceShape s pre last →
      ∃ more last1, TraceShape (run_dada_loop E uk kc fuel s) (pre ++ more) last1 ∧
        more.length ≤ fuel ∧ (last1 ≠ 0 → more.length = fuel) := by
  intro fuel
  induction fuel with
  | zero =>
    intro s pre last h
    exact ⟨[], last, by simpa [run_dada_loop] using h, le_refl _, fun _ => rfl⟩
  | succ f ih =>
    intro s pre last h
    by_cases hne : s.newi ≠ 0
    · obtain ⟨more, last1, hs, hl, hx⟩ := ih _ _ _ (h.round E uk kc hne)
      refine ⟨last :: more, last1, ?_, by simp; omega, fun h0 => by simp [hx h0]⟩
      rw [run_dada_loop_step E uk kc f s hne]
      simpa using hs
    · have h0 : s.newi = 0 := by simpa using hne
      refine ⟨[], last, ?_, by simp, ?_⟩
      · rw [run_dada_loop_done E uk kc _ s h0]
        simpa using h
      · intro hl
        exact absurd (h.2.2 ▸ h0) hl

theorem run_dada_init_shape (E : Engine U R B T) (uniques : U) (score err : Fin 4 → Fin 4 → R)
    (gap_pen omegaA : R) (use_singletons : Bool) (omegaS : R) :
    TraceShape (run_dada_init E uniques score err gap_pen omegaA use_singletons omegaS) []
      (run_dada_init E uniques score err gap_pen omegaA use_singletons omegaS).newi := by
  refine ⟨?_, ?_, rfl⟩
  · simp [run_dada_init, expectedTrace]
  · intro r hr
    simp at hr

theorem run_dada_loop_add (E : Engine U R B T) (uk : Bool) (kc : R) :
    ∀ (fuel k : Nat) (s : RunState B), (run_dada_loop E uk kc fuel s).newi = 0 →
      run_dada_loop E uk kc (fuel + k) s = run_dada_loop E uk kc fuel s := by
  intro fuel
  induction fuel with
  | zero =>
    intro k s h
    simp only [run_dada_loop] at h
    simp only [Nat.zero_add, run_dada_loop]
    exact run_dada_loop_done E uk kc k s h
  | succ f ih =>
    intro k s h
    by_cases hne : s.newi ≠ 0
    · rw [run_dada_loop_step E uk kc f s hne] at h
      rw [show f + 1 + k = (f + k) + 1 by omega, run_dada_loop_step E uk kc _ s hne,
        run_dada_loop_step E uk kc f s hne]
      exact ih k _ h
    · have h0 : s.newi = 0 := by simpa using hne
      rw [run_dada_loop_done E uk kc _ s h0, run_dada_loop_done E uk kc _ s h0]

theorem replay_init (E : Engine U R B T) (uniques : U) (score err : Fin 4 → Fin 4 → R)
    (gap_pen omegaA : R) (use_singletons : Bool) (omegaS : R) (uk : Bool) (kc : R) :
    replay E uniques score err gap_pen omegaA use_singletons omegaS uk kc
      (run_dada_init E uniques score err gap_pen omegaA use_singletons omegaS).trace =
    some (run_dada_init E uniques score err gap_pen omegaA use_singletons omegaS).bb := by
  simp [replay, apply_step, run_dada_init]

theorem replay_round (E : Engine U R B T) (uniques : U) (score err : Fin 4 → Fin 4 → R)
    (gap_pen omegaA : R) (use_singletons : Bool) (omegaS : R) (uk : Bool) (kc : R)
    (s : RunState B)
    (h : replay E uniques score err gap_pen omegaA use_singletons omegaS uk kc s.trace =
      some s.bb) :
    replay E uniques score err gap_pen omegaA use_singletons omegaS uk kc
      (run_dada_round E uk kc s).trace = some (run_dada_round E uk kc s).bb := by
  unfold replay at h ⊢
  simp only [run_dada_round, List.foldl_append, h]
  simp [apply_step]

theorem replay_loop (E : Engine U R B T) (uniques : U) (score err : Fin 4 → Fin 4 → R)
    (gap_pen omegaA : R) (use_singletons : Bool) (omegaS : R) (uk : Bool) (kc : R) :
    ∀ (fuel : Nat) (s : RunState B),
      replay E uniques score err gap_pen omegaA use_singletons omegaS uk kc s.trace =
        some s.bb →
      replay E uniques score err gap_pen omegaA use_singletons omegaS uk kc
        (run_dada_loop E uk kc fuel s).trace = some (run_dada_loop E uk kc fuel s).bb := by
  intro fuel
  induction fuel with
  | zero =>
    intro s h
    simpa [run_dada_loop] using h
  | succ f ih =>
    intro s h
    by_cases hne : s.newi ≠ 0
    · rw [run_dada_loop_step E uk kc f s hne]
      exact ih _ (replay_round E uniques score err gap_pen omegaA use_singletons omegaS uk kc s h)
    · have h0 : s.newi = 0 := by simpa using hne
      rw [run_dada_loop_done E uk kc _ s h0]
      exact h

/-! ### The argument checks -/

theorem dada_uniques_of_fails (E : Engine U R B T) (t : Bool) (a : DadaArgs R) (fuel : Nat)
    (h : precond_fails a) :
    ∃ d, dada_uniques E t a fuel = some (Outcome.fail d
      (if a.seqs.length ≠ a.abundances.length then [] else [Call.uniques_from_vectors])) := by
  by_cases h1 : a.seqs.length ≠ a.abundances.length
  · exact ⟨_, by simp only [dada_uniques, if_pos h1]; rfl⟩
  by_cases h2 : a.score.nrow ≠ 4 ∨ a.score.ncol ≠ 4
  · exact ⟨_, by simp only [dada_uniques, if_neg h1, if_pos h2]; rfl⟩
  by_cases h3 : a.err.nrow ≠ 4 ∨ a.err.ncol ≠ 4
  · exact ⟨_, by simp only [dada_uniques, if_neg h1, if_neg h2, if_pos h3]; rfl⟩
  by_cases h4 : a.gap.length ≠ 1
  · exact ⟨_, by simp only [dada_uniques, if_neg h1, if_neg h2, if_neg h3, if_pos h4]; rfl⟩
  by_cases h5 : a.use_kmers.length ≠ 1
  · exact ⟨_, by simp only [dada_uniques, if_neg h1, if_neg h2, if_neg h3, if_neg h4, if_pos h5]; rfl⟩
  by_cases h6 : a.kdist_cutoff.length ≠ 1
  · exact ⟨_, by simp only [dada_uniques, if_neg h1, if_neg h2, if_neg h3, if_neg h4, if_neg h5, if_pos h6]; rfl⟩
  by_cases h7 : a.omegaA.length ≠ 1
  · exact ⟨_, by simp only [dada_uniques, if_neg h1, if_neg h2, if_neg h3, if_neg h4, if_neg h5, if_neg h6, if_pos h7]; rfl⟩
  by_cases h8 : a.use_singletons.length ≠ 1
  · exact ⟨_, by simp only [dada_uniques, if_neg h1, if_neg h2, if_neg h3, if_neg h4, if_neg h5, if_neg h6, if_neg h7, if_pos h8]; rfl⟩
  by_cases h9 : a.omegaS.length ≠ 1
  · exact ⟨_, by simp only [dada_uniques, if_neg h1, if_neg h2, if_neg h3, if_neg h4, if_neg h5, if_neg h6, if_neg h7, if_neg h8, if_pos h9]; rfl⟩
  exfalso
  unfold precond_fails at h
  omega

theorem dada_uniques_of_ok (E : Engine U R B T) (a : DadaArgs R) (fuel : Nat)
    (h : ¬ precond_fails a) :
    dada_uniques E false a fuel = (engine_call E a fuel).map (fun s =>
      { ret := extract_output E s.bb, printed := [], calls := success_calls s.trace }) := by
  unfold precond_fails at h
  push_neg at h
  obtain ⟨h1, ⟨h2, h2'⟩, ⟨h3, h3'⟩, h4, h5, h6, h7, h8, h9⟩ := h
  simp only [dada_uniques, h1, h2, h2', h3, h3', h4, h5, h6, h7, h8, h9, ne_eq,
    not_true_eq_false, or_self, if_false, Bool.false_eq_true, engine_call, success_calls]
  cases run_dada E (E.uniques_from_vectors a.seqs a.abundances)
        (fun i j => a.score.get i j) (fun i j => a.err.get i j) (E.as_double a.gap)
        (E.as_bool a.use_kmers) (E.as_double a.kdist_cutoff) (E.as_double a.omegaA)
        (E.as_bool_logical a.use_singletons) (E.as_double a.omegaS) fuel <;> rfl

theorem success_calls_count (trace : List Step) :
    (success_calls trace).count Call.run_dada = 1 := by
  have h : (trace.map Call.engine).count Call.run_dada = 0 := by
    rw [List.count_eq_zero]
    intro hm
    obtain ⟨x, _, hx⟩ := List.mem_map.1 hm
    cases hx
  simp [success_calls, List.count_append, h, List.count_cons]

/-- The capped branch as a whole, for a cap of at least one: exactly `m`
comparisons, written to the rows `0, ..., m-1` in turn, no warning. -/
theorem calibrate_kmers_capped (n m fuel : Nat) (hsmall : n * (n - 1) < 2147483648)
    (h1 : 1 ≤ m) (h2 : m < pair_count n) (hf : n + m + 1 ≤ fuel) :
    ∃ log : List (Nat × Nat × Nat),
      log.map (fun e => e.1) = List.range m ∧
      calibrate_kmers n m fuel = some
        { max_aligns := m
          npairs := m
          rows := log.map (fun e => some e.2)
          log := log
          oob := false
          warned := false } := by
  obtain ⟨st1, he, hi1, hp⟩ := outerLoop_capped_reaches n m fuel h1 h2 hf
  have hplan := sampling_plan_capped hsmall h2
  rw [wrap32_size hsmall] at hplan
  obtain ⟨hr, hw, _, ho⟩ := hi1
  rw [hp] at hw
  rw [hp, Nat.sub_self, List.replicate_zero, List.append_nil] at hr
  refine ⟨st1.log, hw, ?_⟩
  unfold calibrate_kmers
  simp only [hplan, wrap32_size hsmall, Int.toNat_ofNat, he, hp, hr, ho]
  simp

theorem lexLt_irrefl (a : Nat × Nat) : ¬ lexLt a a := by
  unfold lexLt
  omega

/-- The partition after a round occurs in the run when the one before did. -/
theorem run_dada_round_occurs (E : Engine U R B T) (uk : Bool) (kc : R) (b0 : B)
    (s : RunState B) (hs : Occurs E b0 s.bb) :
    Occurs E b0 (run_dada_round E uk kc s).bb :=
  (((((hs.consensus_update.lambda_update uk kc).shuffle).consensus_update).fam_update).p_update).bud

/-- The cluster count does not go down over the six steps before `b_bud` and
goes up when the `b_bud` of the round returns nonzero. -/
theorem run_dada_round_nclust (E : Engine U R B T) (uk : Bool) (kc : R) (D : Nat) (b0 : B)
    (hE : BudBounded E D b0) (s : RunState B) (hs : Occurs E b0 s.bb)
    (hne : (run_dada_round E uk kc s).newi ≠ 0) :
    E.nclust s.bb < E.nclust (run_dada_round E uk kc s).bb := by
  have o1 := hs.consensus_update
  have o2 := o1.lambda_update uk kc
  have o3 := o2.shuffle
  have o4 := o3.consensus_update
  have o5 := o4.fam_update
  have o6 := o5.p_update
  have h1 := hE.consensus_update_keeps _ hs
  have h2 := hE.lambda_update_keeps _ uk kc o1
  have h3 := hE.shuffle_keeps _ o2
  have h4 := hE.consensus_update_keeps _ o3
  have h5 := hE.fam_update_keeps _ o4
  have h6 := hE.p_update_keeps _ o5
  have h7 := hE.bud_increases _ o6 hne
  simp only [run_dada_round]
  omega

/-- From a state whose cluster count is within `d` of the bound, the loop is
left after at most `d + 1` further rounds. -/
theorem run_dada_loop_terminates (E : Engine U R B T) (uk : Bool) (kc : R) (D : Nat) (b0 : B)
    (hE : BudBounded E D b0) :
    ∀ (d : Nat) (s : RunState B), Occurs E b0 s.bb → D ≤ E.nclust s.bb + d → s.newi ≠ 0 →
      ∃ N, N ≤ d + 1 ∧ (run_dada_loop E uk kc N s).newi = 0 ∧
        (run_dada_loop E uk kc N s).trace.length = s.trace.length + 7 * N := by
  intro d
  induction d with
  | zero =>
    intro s hs hd hne
    refine ⟨1, le_refl _, ?_⟩
    rw [run_dada_loop_step E uk kc 0 s hne]
    simp only [run_dada_loop]
    constructor
    · by_contra hc
      have := run_dada_round_nclust E uk kc D b0 hE s hs hc
      have := hE.bounded _ (run_dada_round_occurs E uk kc b0 s hs)
      omega
    · simp [run_dada_round]
  | succ d ih =>
    intro s hs hd hne
    by_cases hc : (run_dada_round E uk kc s).newi = 0
    · refine ⟨1, by omega, ?_⟩
      rw [run_dada_loop_step E uk kc 0 s hne]
      simp only [run_dada_loop]
      exact ⟨hc, by simp [run_dada_round]⟩
    · have hlt := run_dada_round_nclust E uk kc D b0 hE s hs hc
      obtain ⟨N, hN, h0, hlen⟩ := ih (run_dada_round E uk kc s)
        (run_dada_round_occurs E uk kc b0 s hs) (by omega) hc
      refine ⟨N + 1, by omega, ?_⟩
      rw [run_dada_loop_step E uk kc N s hne]
      refine ⟨h0, ?_⟩
      rw [hlen]
      simp [run_dada_round]
      omega

/-- Under the spec's stated reason the loop of `run_dada` is left after at most
`D` rounds. -/
theorem run_dada_terminates (E : Engine U R B T) (D : Nat)
    (uniques : U) (score err : Fin 4 → Fin 4 → R) (gap_pen : R) (use_kmers : Bool)
    (kdist_cutoff omegaA : R) (use_singletons : Bool) (omegaS : R)
    (hE : BudBounded E D (E.b_new uniques err score gap_pen omegaA use_singletons omegaS)) :
    ∃ N, N ≤ D ∧ ∀ fuel, N ≤ fuel →
      ∃ s, run_dada E uniques score err gap_pen use_kmers kdist_cutoff omegaA
          use_singletons omegaS fuel = some s ∧
        s.newi = 0 ∧ s.trace.length = 4 + 7 * N := by
  have o0 : Occurs E (E.b_new uniques err score gap_pen omegaA use_singletons omegaS)
      (E.b_p_update (E.b_fam_update
        (E.b_new uniques err score gap_pen omegaA use_singletons omegaS))) :=
    Occurs.start.fam_update.p_update
  have key : ∃ N, N ≤ D ∧
      (run_dada_loop E use_kmers kdist_cutoff N
        (run_dada_init E uniques score err gap_pen omegaA use_singletons omegaS)).newi = 0 ∧
      (run_dada_loop E use_kmers kdist_cutoff N
        (run_dada_init E uniques score err gap_pen omegaA use_singletons omegaS)).trace.length
        = 4 + 7 * N := by
    by_cases h0 : (run_dada_init E uniques score err gap_pen omegaA use_singletons omegaS).newi = 0
    · exact ⟨0, Nat.zero_le _, by simpa [run_dada_loop] using h0,
        by simp [run_dada_loop, run_dada_init]⟩
    · have hinc := hE.bud_increases _ o0 h0
      have hb := hE.bounded _ o0.bud
      obtain ⟨N, hN, hz, hlen⟩ := run_dada_loop_terminates E use_kmers kdist_cutoff D _ hE
        (D - 1) (run_dada_init E uniques score err gap_pen omegaA use_singletons omegaS)
        o0.bud (by simp only [run_dada_init]; omega) h0
      refine ⟨N, by omega, hz, ?_⟩
      rw [hlen]
      simp [run_dada_init]
  obtain ⟨N, hN, hz, hlen⟩ := key
  refine ⟨N, hN, fun fuel hf => ?_⟩
  have hadd := run_dada_loop_add E use_kmers kdist_cutoff N (fuel - N) _ hz
  rw [show N + (fuel - N) = fuel by omega] at hadd
  refine ⟨_, ?_, hz, hlen⟩
  simp only [run_dada, hadd, hz, if_true]

theorem demoEngine_budBounded (b0 : Nat) : BudBounded demoEngine 3 b0 where
  bud_increases := by
    intro b _ h
    simp only [demoEngine] at h ⊢
    split_ifs at h ⊢ with hb
    · simp only []
      omega
    · simp at h
  fam_update_keeps := fun _ _ => le_refl _
  p_update_keeps := fun _ _ => le_refl _
  consensus_update_keeps := fun _ _ => le_refl _
  lambda_update_keeps := fun _ _ _ _ => le_refl _
  shuffle_keeps := fun _ _ => le_refl _
  bounded := fun b _ => Nat.min_le_right b 3

/-- With well-formed arguments and an engine that satisfies the spec's reason
for termination, `dada_uniques` returns the named list for every fuel of at
least some `N ≤ D`. -/
theorem dada_uniques_returns (E : Engine U R B T) (D : Nat) (a : DadaArgs R)
    (h : ¬ precond_fails a)
    (hE : BudBounded E D (E.b_new (E.uniques_from_vectors a.seqs a.abundances)
      (fun i j => a.err.get i j) (fun i j => a.score.get i j) (E.as_double a.gap)
      (E.as_double a.omegaA) (E.as_bool_logical a.use_singletons) (E.as_double a.omegaS))) :
    ∃ N, N ≤ D ∧ ∀ fuel, N ≤ fuel →
      ∃ o, dada_uniques E false a fuel = some o ∧ o.ret.names = ["genotypes", "trans"] := by
  obtain ⟨N, hN, hret⟩ := run_dada_terminates E D (E.uniques_from_vectors a.seqs a.abundances)
    (fun i j => a.score.get i j) (fun i j => a.err.get i j) (E.as_double a.gap)
    (E.as_bool a.use_kmers) (E.as_double a.kdist_cutoff) (E.as_double a.omegaA)
    (E.as_bool_logical a.use_singletons) (E.as_double a.omegaS) hE
  refine ⟨N, hN, fun fuel hf => ?_⟩
  obtain ⟨s, hs, _, _⟩ := hret fuel hf
  have hok := dada_uniques_of_ok E a fuel h
  have hc : engine_call E a fuel = some s := hs
  rw [hc] at hok
  exact ⟨_, hok, rfl⟩

/-- While `n * (n-1)` fits an `int`: with `1 ≤ max_aligns < n(n-1)/2`,
`calibrate_kmers` returns (for every fuel of at least `n + max_aligns + 1`),
performs exactly `max_aligns` comparisons, returns exactly `max_aligns` rows,
writes the row indices `0, ..., max_aligns-1` once each in that order, leaves
no row unfilled, writes nothing outside the vectors and prints no warning. -/
theorem calibrate_kmers_reaches_cap_in_range (n max_aligns fuel : Nat)
    (hsmall : n * (n - 1) < 2147483648) (h1 : 1 ≤ max_aligns)
    (h2 : max_aligns < pair_count n) (hf : n + max_aligns + 1 ≤ fuel) :
    ∃ r, calibrate_kmers n max_aligns fuel = some r ∧
      r.npairs = max_aligns ∧ r.pairs.length = max_aligns ∧
      r.rows.length = max_aligns ∧ r.written = List.range max_aligns ∧
      r.rows = r.pairs.map some ∧ r.oob = false ∧ r.warned = false := by
  obtain ⟨log, hw, he⟩ := calibrate_kmers_capped n max_aligns fuel hsmall h1 h2 hf
  have hlen : log.length = max_aligns := by
    have := congrArg List.length hw
    simpa using this
  refine ⟨_, he, rfl, ?_, ?_, hw, ?_, rfl, rfl⟩
  · simp [CalResult.pairs, hlen]
  · simp [hlen]
  · simp [CalResult.pairs, List.map_map]

/-- Scenario 3 of the spec: 10 sequences and a cap of 5 give exactly 5 rows. -/
theorem calibrate_kmers_scenario_3 :
    ∃ r, calibrate_kmers 10 5 16 = some r ∧
      r.npairs = 5 ∧ r.pairs.length = 5 ∧
      r.rows.length = 5 ∧ r.written = List.range 5 ∧
      r.rows = r.pairs.map some ∧ r.oob = false ∧ r.warned = false :=
  calibrate_kmers_reaches_cap_in_range 10 5 16 (by decide) (by decide) (by decide) (by decide)

/-- While `n * (n-1)` fits an `int`: with `max_aligns ≥ n(n-1)/2`,
`calibrate_kmers` returns (for every fuel of at least `n + 1`) and the pairs it
compares are exactly the `(i, j)` with `i < j < n`, each once, in
lexicographic order; the table has `n(n-1)/2` rows and row `k` holds the
distances of the `k`-th pair. -/
theorem calibrate_kmers_all_pairs_in_range (n max_aligns fuel : Nat)
    (hsmall : n * (n - 1) < 2147483648) (h : pair_count n ≤ max_aligns)
    (hf : n + 1 ≤ fuel) :
    ∃ r, calibrate_kmers n max_aligns fuel = some r ∧
      (∀ i j, (i, j) ∈ r.pairs ↔ i < j ∧ j < n) ∧
      r.pairs.Pairwise lexLt ∧ r.pairs.Nodup ∧ r.pairs = allPairs n ∧
      r.pairs.length = pair_count n ∧ r.rows.length = pair_count n ∧
      r.rows = r.pairs.map some ∧ r.written = List.range (pair_count n) ∧
      r.oob = false := by
  have hp : ((List.range (pair_count n)).zip (allPairs n)).map (fun e => e.2) = allPairs n :=
    List.map_snd_zip _ _ (by simp [allPairs_length])
  have hw : ((List.range (pair_count n)).zip (allPairs n)).map (fun e => e.1) =
      List.range (pair_count n) :=
    List.map_fst_zip _ _ (by simp [allPairs_length])
  refine ⟨_, calibrate_kmers_uncapped n max_aligns fuel hsmall h hf,
    ?_, ?_, ?_, ?_, ?_, ?_, ?_, ?_, rfl⟩
  · intro i j
    simp only [CalResult.pairs, hp]
    exact mem_allPairs
  · simp only [CalResult.pairs, hp]
    exact allPairs_pairwise n
  · simp only [CalResult.pairs, hp]
    refine (allPairs_pairwise n).imp ?_
    intro a b hab heq
    subst heq
    exact lexLt_irrefl a hab
  · simp only [CalResult.pairs, hp]
  · simp only [CalResult.pairs, hp, allPairs_length]
  · simp [allPairs_length]
  · simp only [CalResult.pairs, hp]
  · exact hw

/-! ## The claims -/

/-- C3 at its failing input, 65537 sequences and `max_aligns = 40000`: the cap
is below the 2147516416 pairs there are, but the `int` product
`65537 * 65536` wraps to 65536, so the test of line 218 fails, the cap is
lowered to 32768 and only 32768 comparisons are made and rows returned. -/
theorem calibrate_kmers_overflow_lowers_cap :
    (1 ≤ 40000 ∧ 40000 < pair_count 65537) ∧
    pair_count_int (wrap32 65537) = 32768 ∧
    sampling_plan (wrap32 65537) 40000 = (32768, 65537, 1) ∧
    ∃ r, calibrate_kmers 65537 40000 40000 = some r ∧
      r.max_aligns = 32768 ∧ r.npairs = 32768 ∧ r.pairs.length = 32768 ∧
      r.rows.length = 32768 ∧ r.warned = false := by
  have hplan : sampling_plan (wrap32 ((65537 : Nat) : Int)) 40000 = (32768, 65537, 1) := by
    decide
  refine ⟨by decide, by decide, by decide, ?_⟩
  obtain ⟨st1, he, hi1, hp⟩ := outerLoop_capped 65537 1 32768 40000 (by decide) (by decide)
    257 40000 0 _ (CalInv.init 32768) (by decide) (by decide) (by decide) (by decide)
  have hlen := hi1.log_length
  have hrows := hi1.rows_length
  rw [Nat.zero_mul] at he
  refine ⟨_, calibrate_kmers_of_loop 65537 40000 40000 32768 65537 1 65537 1 hplan
    (by decide) (by decide) st1 he, rfl, hp, ?_, hrows, ?_⟩
  · simp only [CalResult.pairs, List.length_map, hlen, hp]
  · simp [hp]

/-- C4 at its failing input, 46342 sequences and `max_aligns = 2000000000`: the
cap exceeds the 1073767311 pairs there are, but the `int` product
`46342 * 46341` wraps to a negative value, so the test of line 218 succeeds,
the capped branch picks `n_iters = 89444` and the stride `46342 / 89444 = 0`,
and the pair `(0, 1)` is compared 2000000000 times. -/
theorem calibrate_kmers_overflow_takes_capped_branch :
    pair_count 46342 = 1073767311 ∧ pair_count 46342 ≤ 2000000000 ∧
    pair_count_int (wrap32 46342) = -1073716337 ∧
    sampling_plan (wrap32 46342) 2000000000 = (2000000000, 89444, 0) ∧
    ∃ r, calibrate_kmers 46342 2000000000 2000000000 = some r ∧
      r.max_aligns = 2000000000 ∧ r.npairs = 2000000000 ∧
      r.pairs.length = 2000000000 ∧ (∀ p ∈ r.pairs, p = (0, 1)) := by
  have hq : n_iters_capped 2000000000 = 89444 :=
    n_iters_capped_eq 2000000000 89442 (by decide) (by decide)
  have hpc : to_size_t (pair_count_int 46342) = 18446744072635835279 := by decide
  have hplan : sampling_plan 46342 2000000000 = (2000000000, 89444, 0) := by
    unfold sampling_plan
    rw [hpc, hq, if_pos (by decide)]
    decide
  refine ⟨by decide, by decide, by decide, ?_, ?_⟩
  · rw [show wrap32 (46342 : Int) = 46342 by decide]
    exact hplan
  obtain ⟨st1, he, hi1, hp, hin⟩ := outerLoop_stride_zero 46342 2000000000 2000000000
    2000000000 (by decide) (by decide) (by decide) _ (CalInv.init 2000000000) (by decide)
  have hlen := hi1.log_length
  have hlog := innerLoop_stride_zero_log 46342 2000000000 0 2000000000 1 _ st1 hin
  have hplan1 : sampling_plan (wrap32 ((46342 : Nat) : Int)) 2000000000 =
      (2000000000, 89444, 0) := by
    rw [show wrap32 ((46342 : Nat) : Int) = 46342 by decide]
    exact hplan
  refine ⟨_, calibrate_kmers_of_loop 46342 2000000000 2000000000 2000000000 46342 0 89444 0
    hplan1 (by decide) (by decide) st1 he, rfl, hp, ?_, ?_⟩
  · simp only [CalResult.pairs, List.length_map, hlen, hp]
  · intro p hpm
    simp only [CalResult.pairs, List.mem_map] at hpm
    obtain ⟨e, hmem, rfl⟩ := hpm
    rcases hlog e hmem with h | h
    · simp at h
    · exact h

/-- C5 at its failing input, 2 sequences and `max_aligns = 0`: the vectors are
created with length 0, yet one alignment is done and its result is written to
row 0, outside both vectors. -/
theorem calibrate_kmers_zero_cap_overrun :
    calibrate_kmers 2 0 3 = some
      { max_aligns := 0, npairs := 1, rows := [], log := [(0, 0, 1)],
        oob := true, warned := true } := by
  decide

/-- C6 fails as stated: 3 sequences and a cap of 10, which exceeds the 3
available pairs, return the 3 pairs and no warning is printed. -/
theorem calibrate_kmers_small_set_no_warning :
    pair_count 3 < 10 ∧
    calibrate_kmers 3 10 4 = some
      { max_aligns := 3, npairs := 3,
        rows := [some (0, 1), some (0, 2), some (1, 2)],
        log := [(0, 0, 1), (1, 0, 2), (2, 1, 2)],
        oob := false, warned := false } := by
  decide

/-- C6 as amended: while `n * (n-1)` fits an `int` (`n ≤ 46341`), with
`max_aligns > n(n-1)/2` the cap is lowered to `n(n-1)/2`, `calibrate_kmers`
returns the `n(n-1)/2` pairs that were computed, without failing, and the
warning is not printed. -/
theorem calibrate_kmers_small_set_silent (n max_aligns fuel : Nat)
    (hsmall : n * (n - 1) < 2147483648) (h : pair_count n < max_aligns)
    (hf : n + 1 ≤ fuel) :
    ∃ r, calibrate_kmers n max_aligns fuel = some r ∧
      r.warned = false ∧ r.max_aligns = pair_count n ∧ r.npairs = pair_count n ∧
      r.rows = (allPairs n).map some ∧ r.rows.length = pair_count n ∧ r.oob = false :=
  ⟨_, calibrate_kmers_uncapped n max_aligns fuel hsmall (Nat.le_of_lt h) hf, rfl, rfl, rfl, rfl,
    by simp only [List.length_map, allPairs_length], rfl⟩

/-- C6 as amended, on 3 sequences with a cap of 10. -/
theorem calibrate_kmers_small_set_silent_witness :
    ∃ r, calibrate_kmers 3 10 4 = some r ∧
      r.warned = false ∧ r.max_aligns = pair_count 3 ∧ r.npairs = pair_count 3 ∧
      r.rows = (allPairs 3).map some ∧ r.rows.length = pair_count 3 ∧ r.oob = false :=
  calibrate_kmers_small_set_silent 3 10 4 (by decide) (by decide) (by decide)

/-- C9 at its failing input, 3 sequences and `max_aligns = 2`: the capped
branch picks `n_iters = 4`, so the stride is `3 / 4 = 0` and the pair `(0, 1)`
is compared twice. -/
theorem calibrate_kmers_stride_zero_repeats :
    sampling_plan 3 2 = (2, 4, 0) ∧
    calibrate_kmers 3 2 4 = some
      { max_aligns := 2, npairs := 2,
        rows := [some (0, 1), some (0, 1)],
        log := [(0, 0, 1), (1, 0, 1)],
        oob := false, warned := false } := by
  have hs : Nat.sqrt 8 = 2 := (Nat.eq_sqrt.2 ⟨by decide, by decide⟩).symm
  have hpc : to_size_t (pair_count_int 3) = 3 := by decide
  have hplan : sampling_plan 3 2 = (2, 4, 0) := by
    unfold sampling_plan n_iters_capped
    rw [hpc, hs]
    decide
  refine ⟨hplan, ?_⟩
  have hw : wrap32 ((3 : Nat) : Int) = 3 := by decide
  unfold calibrate_kmers
  simp only [hw, hplan]
  decide

/-- C10: the iteration count of the capped branch, `⌊2·√m⌋ + 2` with the
square root taken exactly, satisfies `n_iters * (n_iters - 1) / 2 > m`; the
count is the one the embedding uses, `Nat.sqrt (4 * m) + 2`. -/
theorem n_iters_capped_exceeds (m : Nat) :
    n_iters_capped m = ⌊2 * Real.sqrt (m : ℝ)⌋₊ + 2 ∧
    m < n_iters_capped m * (n_iters_capped m - 1) / 2 := by
  constructor
  · unfold n_iters_capped
    have h4 : Real.sqrt (4 : ℝ) = 2 := by
      rw [show (4 : ℝ) = 2 * 2 by norm_num]
      exact Real.sqrt_mul_self (by norm_num)
    have : (2 : ℝ) * Real.sqrt (m : ℝ) = Real.sqrt ((4 * m : ℕ) : ℝ) := by
      push_cast
      rw [Real.sqrt_mul (by norm_num), h4]
    rw [this, Real.nat_floor_real_sqrt_eq_nat_sqrt]
  · have h := n_iters_capped_double m
    omega

/-- C7: under the spec's stated reason (`BudBounded`: in this run a nonzero
`b_bud` raises the number of Clusters, no other step lowers it, and it never
exceeds the number `D` of distinct input sequences) the round loop of
`run_dada` is left with `newi = 0` after exactly `N` rounds for some `N ≤ D`:
with any fuel of at least `N`, `run_dada` returns, having made the 4 initial
steps and `N` rounds of 7 steps. -/
theorem run_dada_converges (E : Engine U R B T) (D : Nat)
    (uniques : U) (score err : Fin 4 → Fin 4 → R) (gap_pen : R) (use_kmers : Bool)
    (kdist_cutoff omegaA : R) (use_singletons : Bool) (omegaS : R)
    (hE : BudBounded E D (E.b_new uniques err score gap_pen omegaA use_singletons omegaS)) :
    ∃ N, N ≤ D ∧ ∀ fuel, N ≤ fuel →
      ∃ s, run_dada E uniques score err gap_pen use_kmers kdist_cutoff omegaA
          use_singletons omegaS fuel = some s ∧
        s.newi = 0 ∧ s.trace.length = 4 + 7 * N :=
  run_dada_terminates E D uniques score err gap_pen use_kmers kdist_cutoff omegaA
    use_singletons omegaS hE

/-- C7 on the concrete engine, whose cluster count is bounded by 3. -/
theorem run_dada_converges_witness :
    ∃ N, N ≤ 3 ∧ ∀ fuel, N ≤ fuel →
      ∃ s, run_dada demoEngine () (fun _ _ => 0) (fun _ _ => 0) 0 true 0 0 false 0 fuel = some s ∧
        s.newi = 0 ∧ s.trace.length = 4 + 7 * N :=
  run_dada_converges demoEngine 3 () (fun _ _ => 0) (fun _ _ => 0) 0 true 0 0 false 0
    (demoEngine_budBounded _)

/-- C8: after any number `fuel` of passes through the loop, the engine calls
made by `run_dada` are `b_new, b_fam_update, b_p_update`, then, for each
`b_bud` result that was nonzero, that `b_bud` call followed by
`b_consensus_update, b_lambda_update, b_shuffle, b_consensus_update,
b_fam_update, b_p_update`, then the latest `b_bud` call: the partition
`run_dada` holds is the one obtained by applying exactly these engine routines
in this order (`replay`), each `b_bud` having returned the value listed.
`run_dada` returns exactly when the latest `b_bud` result is 0 (all earlier
ones being nonzero), and further fuel adds no step after it. -/
theorem run_dada_step_sequence (E : Engine U R B T) (uniques : U)
    (score err : Fin 4 → Fin 4 → R) (gap_pen : R) (use_kmers : Bool)
    (kdist_cutoff omegaA : R) (use_singletons : Bool) (omegaS : R) (fuel : Nat) :
    ∃ (pre : List Int) (last : Int) (s : RunState B),
      s = run_dada_loop E use_kmers kdist_cutoff fuel
        (run_dada_init E uniques score err gap_pen omegaA use_singletons omegaS) ∧
      s.trace = expectedTrace pre last ∧ (∀ r ∈ pre, r ≠ 0) ∧ s.newi = last ∧
      replay E uniques score err gap_pen omegaA use_singletons omegaS use_kmers kdist_cutoff
        (expectedTrace pre last) = some s.bb ∧
      pre.length ≤ fuel ∧ (last ≠ 0 → pre.length = fuel) ∧
      run_dada E uniques score err gap_pen use_kmers kdist_cutoff omegaA use_singletons
        omegaS fuel = (if last = 0 then some s else none) ∧
      (last = 0 → ∀ k, run_dada_loop E use_kmers kdist_cutoff (fuel + k)
        (run_dada_init E uniques score err gap_pen omegaA use_singletons omegaS) = s) := by
  obtain ⟨more, last, hs, hl, hx⟩ := run_dada_loop_shape E use_kmers kdist_cutoff fuel _ _ _
    (run_dada_init_shape E uniques score err gap_pen omegaA use_singletons omegaS)
  simp only [List.nil_append] at hs
  have hrep := replay_loop E uniques score err gap_pen omegaA use_singletons omegaS
    use_kmers kdist_cutoff fuel _
    (replay_init E uniques score err gap_pen omegaA use_singletons omegaS use_kmers kdist_cutoff)
  rw [hs.1] at hrep
  refine ⟨more, last, _, rfl, hs.1, hs.2.1, hs.2.2, hrep, hl, hx, ?_, ?_⟩
  · simp only [run_dada, hs.2.2]
  · intro h0 k
    exact run_dada_loop_add E use_kmers kdist_cutoff fuel k _ (hs.2.2.trans h0)

/-- C1: with the TESTING diversion off, `dada_uniques` returns `R_NilValue`
exactly when a precondition fails.  When one fails the call returns
`R_NilValue` whatever the fuel; when none fails the call returns exactly when
`run_dada` does, having invoked `run_dada` once, and the value is the list
with the entries `genotypes` and `trans` built from the final partition. -/
theorem dada_uniques_null_iff_precond_fails (E : Engine U R B T) (a : DadaArgs R)
    (fuel : Nat) :
    (precond_fails a →
      ∃ o, dada_uniques E false a fuel = some o ∧ o.ret.isNil = true) ∧
    (¬ precond_fails a →
      (∀ s, engine_call E a fuel = some s →
        ∃ o, dada_uniques E false a fuel = some o ∧ o.ret = extract_output E s.bb ∧
          o.ret.names = ["genotypes", "trans"] ∧ o.ret.isNil = false ∧
          o.calls.count Call.run_dada = 1) ∧
      (engine_call E a fuel = none → dada_uniques E false a fuel = none)) ∧
    (∀ o, dada_uniques E false a fuel = some o → (o.ret.isNil = true ↔ precond_fails a)) := by
  refine ⟨?_, ?_, ?_⟩
  · intro h
    obtain ⟨d, hd⟩ := dada_uniques_of_fails E false a fuel h
    exact ⟨_, hd, rfl⟩
  · intro h
    have hok := dada_uniques_of_ok E a fuel h
    refine ⟨?_, ?_⟩
    · intro s hs
      rw [hs] at hok
      exact ⟨_, hok, rfl, rfl, rfl, success_calls_count s.trace⟩
    · intro hn
      rw [hn] at hok
      exact hok
  · intro o ho
    by_cases h : precond_fails a
    · obtain ⟨d, hd⟩ := dada_uniques_of_fails E false a fuel h
      rw [hd] at ho
      cases ho
      exact ⟨fun _ => h, fun _ => rfl⟩
    · have hok := dada_uniques_of_ok E a fuel h
      rw [hok] at ho
      cases hc : engine_call E a fuel with
      | none => rw [hc] at ho; cases ho
      | some s =>
        rw [hc] at ho
        cases ho
        constructor
        · intro hnil
          cases hnil
        · intro hp
          exact absurd hp h

/-- C1 on the concrete engine: a length mismatch (3 sequences, 4 abundances,
Scenario 4) gives `R_NilValue`; well-formed arguments give the named list after
one invocation of `run_dada`. -/
theorem dada_uniques_null_iff_precond_fails_witness :
    (∃ o, dada_uniques demoEngine false (demoArgs 4 4) 5 = some o ∧ o.ret.isNil = true) ∧
    (∃ o, dada_uniques demoEngine false (demoArgs 3 4) 5 = some o ∧
      o.ret = extract_output demoEngine 3 ∧
      o.ret.names = ["genotypes", "trans"] ∧ o.ret.isNil = false ∧
      o.calls.count Call.run_dada = 1) :=
  ⟨(dada_uniques_null_iff_precond_fails demoEngine (demoArgs 4 4) 5).1 (by decide),
   ((dada_uniques_null_iff_precond_fails demoEngine (demoArgs 3 4) 5).2.1 (by decide)).1
      { bb := 3, newi := 0, trace := expectedTrace [1, 2] 0 } rfl⟩

/-- C2 fails as stated: with 3 sequences, 3 abundances and a 3x3 score matrix
the call returns `R_NilValue` after `uniques_from_vectors` has been called. -/
theorem dada_uniques_builds_uniques_before_matrix_check :
    precond_fails (demoArgs 3 3) ∧
    ∃ o, dada_uniques demoEngine false (demoArgs 3 3) 5 = some o ∧ o.ret.isNil = true ∧
      Call.uniques_from_vectors ∈ o.calls :=
  ⟨by decide, _, rfl, rfl, by decide⟩

/-- C2 as amended: when a precondition fails, `R_NilValue` is returned before
`run_dada` or any engine step (so `b_new`, and with it the partition) has been
called; `uniques_from_vectors` has not been called when the lengths of `seqs`
and `abundances` differ, and has been called when they agree and a later check
fails. -/
theorem dada_uniques_fails_before_run_dada (E : Engine U R B T) (TESTING : Bool)
    (a : DadaArgs R) (fuel : Nat) (h : precond_fails a) :
    ∃ o, dada_uniques E TESTING a fuel = some o ∧ o.ret.isNil = true ∧
      Call.run_dada ∉ o.calls ∧ (∀ s, Call.engine s ∉ o.calls) ∧
      (a.seqs.length ≠ a.abundances.length → Call.uniques_from_vectors ∉ o.calls) ∧
      (a.seqs.length = a.abundances.length → Call.uniques_from_vectors ∈ o.calls) := by
  obtain ⟨d, hd⟩ := dada_uniques_of_fails E TESTING a fuel h
  refine ⟨_, hd, rfl, ?_, ?_, ?_, ?_⟩
  · simp only [Outcome.fail]
    split_ifs <;> simp
  · intro s
    simp only [Outcome.fail]
    split_ifs <;> simp
  · intro hne
    simp only [Outcome.fail, if_pos hne]
    simp
  · intro heq
    simp only [Outcome.fail, ne_eq, heq, not_true_eq_false, if_false]
    simp

/-- C2 as amended, on a length mismatch (3 sequences, 4 abundances). -/
theorem dada_uniques_fails_before_run_dada_witness :
    ∃ o, dada_uniques demoEngine false (demoArgs 4 4) 5 = some o ∧ o.ret.isNil = true ∧
      Call.run_dada ∉ o.calls ∧ (∀ s, Call.engine s ∉ o.calls) ∧
      ((demoArgs 4 4).seqs.length ≠ (demoArgs 4 4).abundances.length →
        Call.uniques_from_vectors ∉ o.calls) ∧
      ((demoArgs 4 4).seqs.length = (demoArgs 4 4).abundances.length →
        Call.uniques_from_vectors ∈ o.calls) :=
  dada_uniques_fails_before_run_dada demoEngine false (demoArgs 4 4) 5 (by decide)

end Dada
